import Mathlib

set_option maxHeartbeats 1000000

/-!
Verification development for the S-1 prospector extraction pipeline.
Strings are modelled as lists of characters; the Python string operations
and the small fixed regular expressions of the source are embedded as
executable functions on `List Char`.
-/

abbrev Str := List Char

/-- Whitespace characters recognised by the source's whitespace handling. -/
def isSpace (c : Char) : Bool :=
  c == ' ' || c == '\t' || c == '\n' || c == '\r' || c == Char.ofNat 11 || c == Char.ofNat 12

def lowerS (s : Str) : Str := s.map Char.toLower

def upperS (s : Str) : Str := s.map Char.toUpper

def lstripWs (s : Str) : Str := s.dropWhile isSpace

/-- Remove trailing whitespace (Python `rstrip`). -/
def rstripWs : Str → Str
  | [] => []
  | c :: t =>
    match rstripWs t with
    | [] => if isSpace c then [] else [c]
    | r => c :: r

/-- Python `strip()`. -/
def trim (s : Str) : Str := rstripWs (lstripWs s)

/-- Python `rstrip(':')`. -/
def rstripColon : Str → Str
  | [] => []
  | c :: t =>
    match rstripColon t with
    | [] => if c == ':' then [] else [c]
    | r => c :: r

/-- Worker for `collapse`; the flag records whether the previous character
was part of a whitespace run already emitted as a single space. -/
def collapseGo : Bool → Str → Str
  | _, [] => []
  | prevWs, c :: t =>
    if isSpace c then
      if prevWs then collapseGo true t else ' ' :: collapseGo true t
    else c :: collapseGo false t

/-- Python `re.sub(r'\s+', ' ', s)`: each maximal whitespace run becomes one space. -/
def collapse (s : Str) : Str := collapseGo false s

/-- Python substring test `pat in s`. -/
def containsSub (pat : Str) : Str → Bool
  | [] => pat.isEmpty
  | c :: t => pat.isPrefixOf (c :: t) || containsSub pat t

/-- Worker for `splitWs`, accumulating the current word in reverse. -/
def splitWsGo : Str → Str → List Str
  | acc, [] => if acc.isEmpty then [] else [acc.reverse]
  | acc, c :: t =>
    if isSpace c then
      if acc.isEmpty then splitWsGo [] t else acc.reverse :: splitWsGo [] t
    else splitWsGo (c :: acc) t

/-- Python `s.split()`: split on whitespace runs, dropping empty pieces. -/
def splitWs (s : Str) : List Str := splitWsGo [] s

/-- Numeric value of a digit string (Python `int` on an all-digit string). -/
def natOfDigits (s : Str) : Nat :=
  s.foldl (fun a c => 10 * a + (c.toNat - 48)) 0

example : collapse "a   b".toList = "a b".toList := by decide
example : trim "  ab c  ".toList = "ab c".toList := by decide
example : containsSub "bc".toList "abcd".toList = true := by decide
example : containsSub "bd".toList "abcd".toList = false := by decide
example : splitWs " ab  cd ".toList = ["ab".toList, "cd".toList] := by decide
example : natOfDigits "1234567".toList = 1234567 := by decide

/-!
Embeddings of the fixed regular expressions used by `edgar.py`.
Each matcher either tests a match anchored at the start of the string or
returns the number of characters consumed, and a generic scanner turns an
anchored matcher into a `re.search`/`re.sub`-style left-to-right pass.
-/

/-- Anchored match of `(\d+\.?\d*)%` (the percentage pattern): returns the
captured group, i.e. the text before the `%`. -/
def pctMatchAt (s : Str) : Option Str :=
  let ds := s.takeWhile Char.isDigit
  if ds.isEmpty then none
  else
    match s.drop ds.length with
    | '%' :: _ => some ds
    | '.' :: r2 =>
      let es := r2.takeWhile Char.isDigit
      match r2.drop es.length with
      | '%' :: _ => some (ds ++ '.' :: es)
      | _ => none
    | _ => none

/-- `re.search(r'(\d+\.?\d*)%', s)`: leftmost match, returning the group. -/
def pctSearch : Str → Option Str
  | [] => none
  | c :: t =>
    match pctMatchAt (c :: t) with
    | some g => some g
    | none => pctSearch t

/-- `re.search(r'([\d,]+)', s)`: leftmost maximal run of digits and commas. -/
def dgSearch : Str → Option Str
  | [] => none
  | c :: t =>
    if Char.isDigit c || c == ',' then some ((c :: t).takeWhile (fun d => Char.isDigit d || d == ','))
    else dgSearch t

/-- Anchored match of `\(\d+\)` (numeric footnote marker); returns chars consumed. -/
def numMarkAt : Str → Option Nat
  | '(' :: r =>
    let ds := r.takeWhile Char.isDigit
    if ds.isEmpty then none
    else
      match r.drop ds.length with
      | ')' :: _ => some (ds.length + 2)
      | _ => none
  | _ => none

/-- Anchored match of `\([a-z]\)` with IGNORECASE (letter footnote marker). -/
def alphaMarkAt : Str → Option Nat
  | '(' :: c :: ')' :: _ => if c.isAlpha then some 3 else none
  | _ => none

/-- Anchored match of `\s*\([\d\.]+%\)\s*` (parenthesised percentage). -/
def pctParenAt (s : Str) : Option Nat :=
  let w := s.takeWhile isSpace
  match s.drop w.length with
  | '(' :: r2 =>
    let b := r2.takeWhile (fun c => Char.isDigit c || c == '.')
    if b.isEmpty then none
    else
      match r2.drop b.length with
      | '%' :: ')' :: r3 =>
        let w2 := r3.takeWhile isSpace
        some (w.length + 1 + b.length + 2 + w2.length)
      | _ => none
  | _ => none

/-- Fuel-driven worker for `scrub`; deletes every anchored match found in a
left-to-right scan, exactly as `re.sub(pat, '', s)` does. -/
def scrubGo (m : Str → Option Nat) : Nat → Str → Str
  | _, [] => []
  | 0, s => s
  | fuel + 1, c :: t =>
    match m (c :: t) with
    | some (n + 1) => scrubGo m fuel (t.drop n)
    | _ => c :: scrubGo m fuel t

/-- `re.sub(pat, '', s)` for an anchored matcher `m` returning match lengths. -/
def scrub (m : Str → Option Nat) (s : Str) : Str := scrubGo m s.length s

/-- `re.sub(r'\(\d+\)', '', s)`: drop numeric footnote markers. -/
def stripNumMarks (s : Str) : Str := scrub numMarkAt s

/-- `re.sub(r'\([a-z]\)', '', s, flags=re.I)`: drop letter footnote markers. -/
def stripAlphaMarks (s : Str) : Str := scrub alphaMarkAt s

/-- `re.sub(r'\s*\([\d\.]+%\)\s*', '', s)`. -/
def subPctParen (s : Str) : Str := scrub pctParenAt s

/-- Anchored test for `\s*\(more than \d+%\)` (the `.*` tail consumes the rest). -/
def moreThanAt (s : Str) : Bool :=
  let r := s.drop (s.takeWhile isSpace).length
  if "(more than ".toList.isPrefixOf r then
    let r2 := r.drop 11
    let ds := r2.takeWhile Char.isDigit
    if ds.isEmpty then false
    else "%)".toList.isPrefixOf (r2.drop ds.length)
  else false

/-- `re.sub(r'\s*\(more than \d+%\).*', '', s)`: cut from the first match on. -/
def subMoreThan : Str → Str
  | [] => []
  | c :: t => if moreThanAt (c :: t) then [] else c :: subMoreThan t

/-- The name-cleaning transform of the row parser (`edgar.py` lines 402-405):
collapse whitespace runs, remove `(1)`-style and `(a)`-style footnote
markers, then strip. -/
def normalizeName (s : Str) : Str :=
  trim (stripAlphaMarks (stripNumMarks (collapse s)))

example : pctSearch "about 4.5% held".toList = some "4.5".toList := by decide
example : pctSearch "12.%".toList = some "12.".toList := by decide
example : pctSearch "1..5%".toList = some "5".toList := by decide
example : pctSearch "no pct".toList = none := by decide
example : dgSearch "1,234,567 shares".toList = some "1,234,567".toList := by decide
example : stripNumMarks "a(12)b".toList = "ab".toList := by decide
example : stripAlphaMarks "a(b)c".toList = "ac".toList := by decide
example : subPctParen "acme (5.2%) corp".toList = "acmecorp".toList := by decide
example : subMoreThan "abc (more than 5%) def".toList = "abc".toList := by decide
example : normalizeName "Jane   Doe (1)".toList = "Jane Doe".toList := by decide
example : normalizeName "a (1) b".toList = "a  b".toList := by decide

/-!
The investor-name validator (`edgar.py`, `is_valid_investor_name`).
The keyword lists are transcribed verbatim from the source.
-/

def nameLower (name : Str) : Str := trim (lowerS name)

def nameUpper (name : Str) : Str := trim (upperS name)

/-- Check 1: `len(name) < 3 or len(name) > 150`. -/
def vLenBad (name : Str) : Bool :=
  decide (name.length < 3) || decide (name.length > 150)

/-- Check 2: entirely upper-case and more than 4 words. -/
def vCapsHeader (name : Str) : Bool :=
  name == nameUpper name && decide ((splitWs name).length > 4)

def exactRejects : List Str :=
  ["directors and executive officers", "executive officers and directors",
   "principal shareholders", "common stock", "class a common stock",
   "class b common stock", "preferred stock"].map String.toList

/-- The percentage-stripped, trailing-colon-stripped variant used by check 3. -/
def nameNoPct (name : Str) : Str :=
  rstripColon (trim (subMoreThan (trim (subPctParen (nameLower name)))))

/-- Check 3: exact match against known non-investor phrases. -/
def vExactReject (name : Str) : Bool :=
  exactRejects.contains (nameNoPct name)

def sectionHeaders : List Str :=
  ["use of proceeds", "plan of distribution", "risk factors",
   "legal matters", "experts", "underwriting", "indemnification",
   "available information", "financial statements", "part i",
   "part ii", "item ", "where you can find", "material u.s.",
   "certain relationships", "related transactions", "description of",
   "dilution", "capitalization", "executive compensation",
   "security ownership", "principal stockholders", "selling stockholders",
   "shares eligible", "tax considerations", "erisa considerations",
   "validity of", "legal proceedings", "market for", "dividend policy",
   "selected financial", "properties", "directors and officers",
   "table of contents", "prospectus summary", "the offering",
   "corporate governance", "related party", "beneficial owner",
   "5% or greater", "information not required", "limitation on",
   "release of funds", "nasdaq", "nyse", "trading symbol",
   "disclosure of", "commission position", "index to", "changes in",
   "disagreements with", "accountants on", "accounting and",
   "federal tax", "non-u.s. holders", "securities act",
   "forward-looking", "summary of", "overview", "background",
   "how to", "what is", "why we", "our business", "our company",
   "financial condition", "results of operations", "liquidity",
   "critical accounting", "recent developments", "industry",
   "competition", "intellectual property", "government regulation",
   "employees", "facilities", "legal proceedings",
   "principal shareholders", "more than 5%", "class a", "class b",
   "common stock", "preferred stock", "series a", "series b"].map String.toList

/-- Check 4: section/topic substring anywhere in the lower-cased name. -/
def vSectionHit (name : Str) : Bool :=
  sectionHeaders.any (fun h => containsSub h (nameLower name))

def badStarts : List Str :=
  ["name", "total", "(", "_", "*", "-", "—", "note", "see ",
   "the ", "our ", "we ", "an ", "a ", "all executive", "all directors",
   "officers and directors as a group", "executive officers and directors",
   "item", "part", "section", "article", "exhibit", "schedule",
   "index", "table", "summary", "overview", "introduction",
   "directors and", "executive officers"].map String.toList

/-- Check 5 trigger: the lower-cased name starts with a non-name pattern. -/
def vBadStart (name : Str) : Bool :=
  badStarts.any (fun p => p.isPrefixOf (nameLower name))

/-- Check 5 exception: contains "as a group" and at least one digit. -/
def vGroupDigit (name : Str) : Bool :=
  containsSub "as a group".toList (nameLower name) && name.any Char.isDigit

/-- Check 6: `^[\d\s\.\,\%\$\(\)\-]+$`. -/
def vAllNumPunct (name : Str) : Bool :=
  !name.isEmpty && name.all (fun c =>
    Char.isDigit c || isSpace c || c == '.' || c == ',' || c == '%' ||
    c == '$' || c == '(' || c == ')' || c == '-')

/-- Check 7: starts with a parenthesised number or with asterisks. -/
def vFootnote (name : Str) : Bool :=
  (numMarkAt name).isSome || (match name with | '*' :: _ => true | _ => false)

def badEndings : List Str :=
  ["statements", "information", "considerations", "matters",
   "disclosure", "liability", "liabilities"].map String.toList

/-- Check 8: ends with a section-title suffix. -/
def vBadEnding (name : Str) : Bool :=
  badEndings.any (fun e => e.isSuffixOf (nameLower name))

def entityIndicators : List Str :=
  ["llc", "llp", "l.l.c", "l.p.", " lp", "inc", "corp", "corporation",
   "fund", "capital", "partners", "venture", "trust", "holdings",
   "management", "advisors", "investment", "equity", "group",
   "foundation", "endowment", "family", "associates", "asset",
   "securities", "limited", "ltd", "company", "co.", " gp",
   "partnership"].map String.toList

def hasEntityInd (name : Str) : Bool :=
  entityIndicators.any (fun i => containsSub i (nameLower name))

/-- Python `str.isupper()`: has a cased character and all cased are upper. -/
def pyIsUpper (w : Str) : Bool :=
  w.any Char.isAlpha && w.all (fun c => !c.isAlpha || c.isUpper)

/-- `w[0].isupper()`. -/
def headCap : Str → Bool
  | [] => false
  | c :: _ => c.isUpper

/-- `sum(1 for w in words if w and w[0].isupper() and not w.isupper())`. -/
def capWordCount (name : Str) : Nat :=
  ((splitWs name).filter (fun w => headCap w && !pyIsUpper w)).length

/-- 2-5 words, at least 2 capitalised-but-not-all-caps, not an all-caps name. -/
def looksPerson (name : Str) : Bool :=
  decide (2 ≤ (splitWs name).length) && decide ((splitWs name).length ≤ 5) &&
  decide (capWordCount name ≥ 2) && !(name == nameUpper name)

def credPats : List Str :=
  ["ph.d", "m.d", "m.b.a", "j.d", "cpa", "cfa"].map String.toList

/-- Match a credential alternative where `'.'` in the pattern is `\.?`
(optional dot); returns consumed length. Case-insensitive. -/
def matchOptDots : Str → Str → Option Nat
  | [], _ => some 0
  | '.' :: ps, s =>
    match s with
    | '.' :: t => (matchOptDots ps t).map (· + 1)
    | _ => matchOptDots ps s
  | p :: ps, c :: t => if c.toLower == p then (matchOptDots ps t).map (· + 1) else none
  | _ :: _, [] => none

def isWordChar (c : Char) : Bool := c.isAlphanum || c == '_'

def wordBoundaryAfter : Str → Bool
  | [] => true
  | d :: _ => !isWordChar d

/-- One of the credential alternatives matches here, with a trailing `\b`. -/
def credHitAt (s : Str) : Bool :=
  credPats.any (fun p =>
    match matchOptDots p s with
    | some n => wordBoundaryAfter (s.drop n)
    | none => false)

def credSearchGo : Option Char → Str → Bool
  | _, [] => false
  | prev, c :: t =>
    ((match prev with | none => true | some p => !isWordChar p) && credHitAt (c :: t)) ||
    credSearchGo (some c) t

/-- `re.search(r'\b(Ph\.?D|M\.?D|M\.?B\.?A|J\.?D|CPA|CFA)\b', name, re.I)`. -/
def hasCred (name : Str) : Bool := credSearchGo none name

/-- `re.search(r'\d+\.?\d*%', name)`. -/
def hasPctNum (name : Str) : Bool := (pctSearch name).isSome

/-- Last-resort check: 2-4 words, each starting upper-case. -/
def twoToFourCaps (name : Str) : Bool :=
  decide (2 ≤ (splitWs name).length) && decide ((splitWs name).length ≤ 4) &&
  (splitWs name).all headCap

/-- `is_valid_investor_name` from `edgar.py`, as the ordered chain of checks. -/
def is_valid_investor_name (name : Str) : Bool :=
  if vLenBad name then false
  else if vCapsHeader name then false
  else if vExactReject name then false
  else if vSectionHit name then false
  else if vBadStart name then vGroupDigit name
  else if vAllNumPunct name then false
  else if vFootnote name then false
  else if vBadEnding name then false
  else if hasPctNum name && (hasEntityInd name || looksPerson name || hasCred name) then true
  else if hasEntityInd name || looksPerson name || hasCred name then true
  else twoToFourCaps name

example : is_valid_investor_name "John A. Smith".toList = true := by decide
example : is_valid_investor_name "ABC Capital Partners LLC".toList = true := by decide
example : is_valid_investor_name "Risk Factors".toList = false := by decide
example : is_valid_investor_name "(1)".toList = false := by decide
example : is_valid_investor_name "Jane Doe".toList = true := by decide
example : hasCred "John Roe, Ph.D.".toList = true := by decide
example : hasCred "Alpha Fund".toList = false := by decide

/-!
Field extraction from the cells after the name cell
(`edgar.py`, `extract_stockholder_table` lines 413-427).
-/

/-- Share-count candidate of one cell: search `([\d,]+)` in the cell text with
`%` removed, drop commas, keep the value only if it is all digits and
exceeds 100 (the body of the share branch of the cell loop). -/
def shareOf (cellText : Str) : Option Nat :=
  match dgSearch (cellText.filter (fun c => !(c == '%'))) with
  | none => none
  | some g =>
    let ds := g.filter (fun c => !(c == ','))
    if !ds.isEmpty && ds.all Char.isDigit && decide (natOfDigits ds > 100) then
      some (natOfDigits ds)
    else none

/-- The cell loop: scan the cells after the name cell once, filling the
percentage field from the first cell with a percentage match and the share
field from the first cell whose digit group passes the `> 100` filter.
Each cell text is stripped before matching, as in the source. -/
def scanFields : List Str → Option Str → Option Nat → Option Str × Option Nat
  | [], pct, sh => (pct, sh)
  | c :: rest, pct, sh =>
    scanFields rest
      (match pct with
       | some p => some p
       | none => pctSearch (trim c))
      (match sh with
       | some n => some n
       | none => shareOf (trim c))

example : scanFields ["1,234,567 shares".toList, "4.5%".toList] none none =
    (some "4.5".toList, some 1234567) := by decide
example : scanFields ["50".toList, "5,000".toList] none none =
    (none, some 5000) := by decide

/-!
Table qualification, header-row detection and the per-document scan
(`edgar.py`, `extract_stockholder_table`).
A table is modelled by its rows, its own text, and the text of the nearest
preceding heading-like element found by the 5-element lookback; a row is
modelled by its cell texts and its own text.
-/

structure Row where
  cells : List Str
  text : Str
deriving DecidableEq

structure Table where
  rows : List Row
  text : Str
  preceding : Str
deriving DecidableEq

structure Stockholder where
  name : Str
  shares : Option Nat
  ownership_pct : Option Str
deriving DecidableEq

/-- Match one multi-word header pattern (`word1\s+word2...`) at the start. -/
def matchWords : List Str → Str → Bool
  | [], _ => true
  | [w], s => w.isPrefixOf s
  | w :: ws, s =>
    w.isPrefixOf s &&
      (let r := s.drop w.length
       let sp := r.takeWhile isSpace
       !sp.isEmpty && matchWords ws (r.drop sp.length))

/-- `re.search` of a `word1\s+word2...` pattern anywhere in the string. -/
def seqSearch (ws : List Str) : Str → Bool
  | [] => matchWords ws []
  | c :: t => matchWords ws (c :: t) || seqSearch ws t

/-- The five section-header regexes of `header_patterns`, searched in a
lower-cased text.  The optional group of the first pattern is expanded into
the two alternatives it denotes. -/
def headerPatternsHit (s : Str) : Bool :=
  seqSearch ["principal".toList, "stockholders".toList] s ||
  seqSearch ["principal".toList, "and".toList, "selling".toList, "stockholders".toList] s ||
  seqSearch ["security".toList, "ownership".toList] s ||
  seqSearch ["beneficial".toList, "owner".toList] s ||
  seqSearch ["selling".toList, "stockholders".toList] s ||
  seqSearch ["principal".toList, "shareholders".toList] s

/-- Table qualification: a section-header pattern in the table text or the
preceding text, or `beneficial` together with `shares`/`percent` in the
table text. -/
def isStockTable (t : Table) : Bool :=
  let tt := lowerS t.text
  let pt := lowerS t.preceding
  headerPatternsHit tt || headerPatternsHit pt ||
    (containsSub "beneficial".toList tt &&
      (containsSub "shares".toList tt || containsSub "percent".toList tt))

/-- Header-row test: row text contains `name` with `shares` or `percent`,
or contains `beneficial owner`. -/
def headerRowHit (r : Row) : Bool :=
  let rt := lowerS r.text
  (containsSub "name".toList rt &&
    (containsSub "shares".toList rt || containsSub "percent".toList rt)) ||
  containsSub "beneficial owner".toList rt

/-- Data-row processing: rows with fewer than two cells are skipped; the
first cell is stripped and cleaned; the cleaned name must pass the
validator; the remaining cells feed the field scan. -/
def processRow (row : Row) : Option Stockholder :=
  match row.cells with
  | c0 :: c1 :: cs =>
    let name := normalizeName (trim c0)
    if is_valid_investor_name name then
      let fields := scanFields (c1 :: cs) none none
      some { name := name, shares := fields.2, ownership_pct := fields.1 }
    else none
  | _ => none

/-- Rows contributed by one qualifying table: locate the header row; if none
is found the table yields nothing, else parse every row after it. -/
def tableRecords (t : Table) : List Stockholder :=
  match t.rows.findIdx? headerRowHit with
  | some i => (t.rows.drop (i + 1)).filterMap processRow
  | none => []

/-- The table loop of `extract_stockholder_table`: non-qualifying tables are
skipped; after a qualifying table is processed the loop stops as soon as the
accumulated list is non-empty. -/
def extractLoop : List Table → List Stockholder → List Stockholder
  | [], acc => acc
  | t :: rest, acc =>
    if isStockTable t then
      let acc2 := acc ++ tableRecords t
      if acc2.isEmpty then extractLoop rest acc2 else acc2
    else extractLoop rest acc

/-- `extract_stockholder_table` on a parsed document, modelled as the list of
its tables in document order. -/
def extract_stockholder_table (tables : List Table) : List Stockholder :=
  extractLoop tables []

/-!
Entity classification (`main.py`, `classify_entity`).
-/

inductive EntityType where
  | foundation
  | family_office
  | trust
  | fund
  | corporate
  | unknown
deriving DecidableEq

/-- `any(term in name_lower for term in terms)`. -/
def anyIn (terms : List String) (s : Str) : Bool :=
  terms.any (fun t => containsSub t.toList s)

/-- `classify_entity` from `main.py`: the if/elif keyword chain. -/
def classify_entity (name : Str) : EntityType :=
  let nl := lowerS name
  if anyIn ["foundation", "endowment"] nl then .foundation
  else if anyIn ["family office", "family trust", "family lp"] nl then .family_office
  else if anyIn ["trust", "estate"] nl then .trust
  else if anyIn ["capital", "partners", "ventures", "fund", "management", "advisors", "llc", "lp"] nl then .fund
  else if anyIn ["inc", "corp", "corporation", "company"] nl then .corporate
  else .unknown

/-- The spec-side description of the classifier: a first-matching rule over
an ordered table of keyword families (`Modelled from the spec` wording of
§4.6, for comparison against `classify_entity`). -/
def entityRules : List (List String × EntityType) :=
  [(["foundation", "endowment"], .foundation),
   (["family office", "family trust", "family lp"], .family_office),
   (["trust", "estate"], .trust),
   (["capital", "partners", "ventures", "fund", "management", "advisors", "llc", "lp"], .fund),
   (["inc", "corp", "corporation", "company"], .corporate)]

def classifySpec (name : Str) : EntityType :=
  match entityRules.find? (fun r => anyIn r.1 (lowerS name)) with
  | some r => r.2
  | none => .unknown

/-!
Document-link selection on the filing index page
(`edgar.py`, `parse_stockholders` lines 150-158).
-/

structure Anchor where
  text : Str
  href : Str
deriving DecidableEq

/-- The first-pass qualification of an anchor in the source: link text
mentions `s-1` or the href ends with `.htm`, and the href contains the
archive path segment. -/
def anchorQual (a : Anchor) : Bool :=
  (containsSub "s-1".toList (lowerS a.text) || ".htm".toList.isSuffixOf a.href) &&
  containsSub "/Archives/edgar/data/".toList a.href

/-- The anchor scan: first anchor satisfying `anchorQual` wins. -/
def selectDocLink (links : List Anchor) : Option Anchor :=
  links.find? anchorQual

/-- The claim's reading of the first-pass condition (`Modelled from the
spec`): link text or href mentions the form type `s-1`. -/
def mentionsFormType (a : Anchor) : Bool :=
  containsSub "s-1".toList (lowerS a.text) || containsSub "s-1".toList (lowerS a.href)

/-!
Roster matching (`affinity.py`, `AffinityClient.find_match`).
The two similarity ratios computed by the external fuzzy-matching library
are opaque to this repository; for a fixed investor name their maximum is a
fixed score per roster name, modelled as a score function.
-/

/-- One pool scan of `find_match`: update the best entry whenever the score
strictly improves and meets the threshold. -/
def scanPool (f : Str → Nat) (threshold : Nat) : List Str → Option Str × Nat → Option Str × Nat
  | [], st => st
  | n :: rest, (best, bestScore) =>
    let s := f n
    if decide (s > bestScore) && decide (s ≥ threshold) then
      scanPool f threshold rest (some n, s)
    else
      scanPool f threshold rest (best, bestScore)

/-- `find_match`: organizations scanned first, then persons, sharing the
running best state; returns the best-scoring entry at or above the
threshold, or none. -/
def find_match (f : Str → Nat) (orgs persons : List Str) (threshold : Nat) : Option Str :=
  (scanPool f threshold persons (scanPool f threshold orgs (none, 0))).1

/-!
Numeric reading of a captured percentage string, used to state the
`[0, 100]` part of the record invariant.
-/

/-- Shape of a string captured by the percentage pattern: digits, optionally
followed by a point and digits. -/
def decShape (g : Str) : Bool :=
  let ds := g.takeWhile Char.isDigit
  if ds.isEmpty then false
  else
    match g.drop ds.length with
    | [] => true
    | '.' :: es => es.all Char.isDigit
    | _ => false

/-- Digits after the decimal point of a captured percentage string. -/
def fracDigits (g : Str) : Str :=
  ((g.drop (g.takeWhile (fun c => !(c == '.'))).length).drop 1).filter Char.isDigit

def pctNum (g : Str) : Nat := natOfDigits (g.filter Char.isDigit)

def pctDen (g : Str) : Nat := 10 ^ (fracDigits g).length

/-- Rational value of a captured percentage string. -/
def pctVal (g : Str) : ℚ := (pctNum g : ℚ) / (pctDen g : ℚ)

example : classify_entity "XYZ Family Trust".toList = .family_office := by decide
example : classify_entity "ABC Capital Partners LLC".toList = .fund := by decide
example : classify_entity "John A. Smith".toList = .unknown := by decide
example : decShape "4.5".toList = true := by decide
example : pctVal "4.5".toList = (9 : ℚ) / 2 := by
  have h1 : pctNum "4.5".toList = 45 := by decide
  have h2 : pctDen "4.5".toList = 10 := by decide
  rw [pctVal, h1, h2]; norm_num

/-!
Concrete fixtures: a qualifying table with no detectable header row, and a
qualifying table that yields one record.
-/

/-- A table that qualifies as a stockholder table (its text matches the
`security ownership` pattern) but contains no row recognisable as a header
row, so it yields zero records. -/
def tableNoHeader : Table :=
  { rows := [{ cells := ["Alpha Fund LLC".toList, "200,000".toList],
               text := "Alpha Fund LLC 200,000".toList }],
    text := "Security Ownership of Certain Beneficial Owners Alpha Fund LLC 200,000".toList,
    preceding := [] }

/-- A qualifying table with a header row and one valid data row whose second
cell reads `500%`. -/
def tableGood : Table :=
  { rows := [{ cells := ["Name".toList, "Shares".toList, "Percent".toList],
               text := "Name Shares Percent".toList },
             { cells := ["Acme Capital LLC".toList, "500%".toList],
               text := "Acme Capital LLC 500%".toList }],
    text := "Name Shares Percent Acme Capital LLC 500%".toList,
    preceding := "Principal Stockholders".toList }

/-- The record extracted from `tableGood`. -/
def acmeRec : Stockholder :=
  { name := "Acme Capital LLC".toList, shares := some 500,
    ownership_pct := some "500".toList }

/-- Scenario 5 data row. -/
def janeRow : Row :=
  { cells := ["Jane Doe".toList, "1,234,567 shares".toList, "4.5%".toList],
    text := "Jane Doe 1,234,567 shares 4.5%".toList }

/-- An index-page anchor that mentions the form type nowhere but whose href
ends in `.htm` and contains the archive path segment. -/
def anchorNoS1 : Anchor :=
  { text := "filing document".toList,
    href := "/Archives/edgar/data/123/abc.htm".toList }

/-- The aggregate-row name of Scenario 4. -/
def groupName : Str :=
  "All executive officers and directors as a group (12 persons)".toList

/-- A name that starts with a rejected prefix and contains "as a group" and
a digit, yet is rejected by the earlier section-substring check. -/
def trickGroupName : Str :=
  "the risk factors as a group of 12 persons".toList

example : isStockTable tableNoHeader = true := by decide
example : tableRecords tableNoHeader = [] := by decide
example : isStockTable tableGood = true := by decide
example : tableRecords tableGood = [acmeRec] := by decide
example : extract_stockholder_table [tableNoHeader, tableGood] = [acmeRec] := by decide
example : processRow janeRow =
    some { name := "Jane Doe".toList, shares := some 1234567,
           ownership_pct := some "4.5".toList } := by decide
example : selectDocLink [anchorNoS1] = some anchorNoS1 := by decide
example : mentionsFormType anchorNoS1 = false := by decide

/-!
Lemmas about the whitespace operations, towards the idempotence analysis of
the name normalizer.
-/

/-- Head of the string is not whitespace (vacuously true for `[]`). -/
def headNonSpace : Str → Bool
  | [] => true
  | c :: _ => !isSpace c

/-- Collapsed shape: every whitespace character is a single `' '` not
followed by further whitespace. -/
def wsOK : Str → Bool
  | [] => true
  | c :: t => (!isSpace c || (c == ' ' && headNonSpace t)) && wsOK t

theorem wsOK_tail {c : Char} {t : Str} (h : wsOK (c :: t) = true) : wsOK t = true := by
  simp [wsOK] at h; exact h.2

theorem headNonSpace_collapseGo_true (s : Str) : headNonSpace (collapseGo true s) = true := by
  induction s with
  | nil => rfl
  | cons c t ih =>
    by_cases hc : isSpace c = true
    · simpa [collapseGo, hc] using ih
    · simp [collapseGo, hc, headNonSpace]

theorem wsOK_collapseGo (s : Str) : ∀ b, wsOK (collapseGo b s) = true := by
  induction s with
  | nil => intro b; rfl
  | cons c t ih =>
    intro b
    by_cases hc : isSpace c = true
    · cases b with
      | true => simpa [collapseGo, hc] using ih true
      | false =>
        simp [collapseGo, hc, wsOK, headNonSpace_collapseGo_true t]
        exact ih true
    · simp [collapseGo, hc, wsOK, ih false]

theorem collapseGo_eq_self {s : Str} (h : wsOK s = true) :
    ∀ b, b = false ∨ headNonSpace s = true → collapseGo b s = s := by
  induction s with
  | nil => intro b _; cases b <;> rfl
  | cons c t ih =>
    intro b hb
    by_cases hc : isSpace c = true
    · have hhead : headNonSpace (c :: t) = false := by simp [headNonSpace, hc]
      have hbf : b = false := by
        rcases hb with h1 | h1
        · exact h1
        · rw [hhead] at h1; exact absurd h1 (by simp)
      subst hbf
      have h' := h
      simp [wsOK, hc] at h'
      obtain ⟨⟨hcsp, hht⟩, hwt⟩ := h'
      have : collapseGo true t = t := ih hwt true (Or.inr hht)
      simp [collapseGo, hc, this]
      exact hcsp.symm
    · have hwt : wsOK t = true := wsOK_tail h
      simp [collapseGo, hc]
      exact ih hwt false (Or.inl rfl)

theorem collapse_eq_self {s : Str} (h : wsOK s = true) : collapse s = s :=
  collapseGo_eq_self h false (Or.inl rfl)

theorem wsOK_collapse (s : Str) : wsOK (collapse s) = true := wsOK_collapseGo s false

theorem wsOK_lstripWs {s : Str} (h : wsOK s = true) : wsOK (lstripWs s) = true := by
  induction s with
  | nil => exact h
  | cons c t ih =>
    by_cases hc : isSpace c = true
    · simpa [lstripWs, List.dropWhile, hc] using ih (wsOK_tail h)
    · simpa [lstripWs, List.dropWhile, hc] using h

theorem rstripWs_cons (c : Char) (t : Str) :
    rstripWs (c :: t) = [] ∨ ∃ r, rstripWs (c :: t) = c :: r := by
  cases h : rstripWs t with
  | nil =>
    by_cases hc : isSpace c = true
    · left; simp [rstripWs, h, hc]
    · right; exact ⟨[], by simp [rstripWs, h, hc]⟩
  | cons d r => right; exact ⟨d :: r, by simp [rstripWs, h]⟩

theorem headNonSpace_rstripWs {s : Str} (h : headNonSpace s = true) :
    headNonSpace (rstripWs s) = true := by
  cases s with
  | nil => exact h
  | cons c t =>
    rcases rstripWs_cons c t with h1 | ⟨r, h1⟩
    · simp [h1, headNonSpace]
    · rw [h1]; simpa [headNonSpace] using h

theorem wsOK_rstripWs {s : Str} (h : wsOK s = true) : wsOK (rstripWs s) = true := by
  induction s with
  | nil => exact h
  | cons c t ih =>
    have hwt := wsOK_tail h
    cases ht : rstripWs t with
    | nil =>
      by_cases hc : isSpace c = true
      · simp [rstripWs, ht, hc, wsOK]
      · simp [rstripWs, ht, hc, wsOK, headNonSpace]
    | cons d r =>
      have hr : wsOK (d :: r) = true := ht ▸ ih hwt
      have hhead : isSpace c = false ∨ (c = ' ' ∧ isSpace d = false) := by
        by_cases hc : isSpace c = true
        · simp [wsOK, hc] at h
          obtain ⟨⟨hcsp, hht⟩, _⟩ := h
          cases t with
          | nil => simp [rstripWs] at ht
          | cons e t2 =>
            rcases rstripWs_cons e t2 with h2 | ⟨r2, h2⟩
            · rw [h2] at ht; exact absurd ht (by simp)
            · rw [h2] at ht
              have hde : d = e := by injection ht with h3 _; exact h3.symm
              have : isSpace e = false := by simpa [headNonSpace] using hht
              exact Or.inr ⟨hcsp, hde ▸ this⟩
        · exact Or.inl (by simpa using hc)
      have hgoal : rstripWs (c :: t) = c :: d :: r := by simp [rstripWs, ht]
      rw [hgoal]
      simp only [wsOK, headNonSpace] at hr ⊢
      simp only [Bool.and_eq_true, Bool.or_eq_true] at hr ⊢
      refine ⟨?_, hr⟩
      rcases hhead with h1 | ⟨h1, h2⟩
      · left; simp [h1]
      · right; simp [h1, h2]

theorem rstripWs_idem (s : Str) : rstripWs (rstripWs s) = rstripWs s := by
  induction s with
  | nil => rfl
  | cons c t ih =>
    cases ht : rstripWs t with
    | nil =>
      by_cases hc : isSpace c = true
      · simp [rstripWs, ht, hc]
      · simp [rstripWs, ht, hc]
    | cons d r =>
      have h1 : rstripWs (c :: t) = c :: d :: r := by simp [rstripWs, ht]
      have h2 : rstripWs (d :: r) = d :: r := by
        have := ih; rw [ht] at this; exact this
      have e1 : rstripWs (c :: d :: r) =
          (match rstripWs (d :: r) with
           | [] => if isSpace c = true then [] else [c]
           | r2 => c :: r2) := rfl
      rw [h1, e1, h2]

theorem headNonSpace_lstripWs (s : Str) : headNonSpace (lstripWs s) = true := by
  induction s with
  | nil => rfl
  | cons c t ih =>
    by_cases hc : isSpace c = true
    · simpa [lstripWs, List.dropWhile, hc] using ih
    · simp [lstripWs, List.dropWhile, hc, headNonSpace]

theorem lstripWs_of_headNonSpace {s : Str} (h : headNonSpace s = true) : lstripWs s = s := by
  cases s with
  | nil => rfl
  | cons c t =>
    have : isSpace c = false := by simpa [headNonSpace] using h
    simp [lstripWs, List.dropWhile, this]

theorem trim_idem (s : Str) : trim (trim s) = trim s := by
  unfold trim
  rw [lstripWs_of_headNonSpace (headNonSpace_rstripWs (headNonSpace_lstripWs s))]
  exact rstripWs_idem _

theorem wsOK_trim {s : Str} (h : wsOK s = true) : wsOK (trim s) = true :=
  wsOK_rstripWs (wsOK_lstripWs h)

theorem collapse_trim_collapse (x : Str) :
    collapse (trim (collapse x)) = trim (collapse x) :=
  collapse_eq_self (wsOK_trim (wsOK_collapse x))

theorem mem_collapseGo {c : Char} {s : Str} :
    ∀ b, c ∈ collapseGo b s → c = ' ' ∨ c ∈ s := by
  induction s with
  | nil => intro b h; simp [collapseGo] at h
  | cons d t ih =>
    intro b h
    by_cases hd : isSpace d = true
    · cases b with
      | true =>
        simp only [collapseGo, hd, if_true] at h
        rcases ih true h with h1 | h1
        · exact Or.inl h1
        · exact Or.inr (List.mem_cons_of_mem _ h1)
      | false =>
        simp only [collapseGo, hd, if_true] at h
        rcases List.mem_cons.mp h with h1 | h1
        · exact Or.inl h1
        · rcases ih true h1 with h2 | h2
          · exact Or.inl h2
          · exact Or.inr (List.mem_cons_of_mem _ h2)
    · simp only [collapseGo, hd] at h
      simp only [Bool.false_eq_true, if_false] at h
      rcases List.mem_cons.mp h with h1 | h1
      · exact Or.inr (h1 ▸ List.mem_cons_self _ _)
      · rcases ih false h1 with h2 | h2
        · exact Or.inl h2
        · exact Or.inr (List.mem_cons_of_mem _ h2)

theorem noParen_collapse {s : Str} (h : '(' ∉ s) : '(' ∉ collapse s := by
  intro hmem
  rcases mem_collapseGo false hmem with h1 | h1
  · exact absurd h1 (by decide)
  · exact h h1

theorem mem_rstripWs {c : Char} {s : Str} (h : c ∈ rstripWs s) : c ∈ s := by
  induction s with
  | nil => simpa [rstripWs] using h
  | cons d t ih =>
    cases ht : rstripWs t with
    | nil =>
      rw [show rstripWs (d :: t) =
          (match rstripWs t with
           | [] => if isSpace d = true then [] else [d]
           | r => d :: r) from rfl, ht] at h
      by_cases hd : isSpace d = true
      · simp [hd] at h
      · simp [hd] at h
        exact h ▸ List.mem_cons_self _ _
    | cons e r =>
      rw [show rstripWs (d :: t) =
          (match rstripWs t with
           | [] => if isSpace d = true then [] else [d]
           | r => d :: r) from rfl, ht] at h
      rcases List.mem_cons.mp h with h1 | h1
      · exact h1 ▸ List.mem_cons_self _ _
      · exact List.mem_cons_of_mem _ (ih (ht ▸ h1))

theorem mem_lstripWs {c : Char} {s : Str} (h : c ∈ lstripWs s) : c ∈ s := by
  induction s with
  | nil => simpa [lstripWs] using h
  | cons d t ih =>
    by_cases hd : isSpace d = true
    · simp only [lstripWs, List.dropWhile, hd] at h
      exact List.mem_cons_of_mem _ (ih h)
    · simpa [lstripWs, List.dropWhile, hd] using h

theorem noParen_trim {s : Str} (h : '(' ∉ s) : '(' ∉ trim s :=
  fun hmem => h (mem_lstripWs (mem_rstripWs hmem))

theorem numMarkAt_none_of_ne {c : Char} (t : Str) (h : c ≠ '(') :
    numMarkAt (c :: t) = none := by
  unfold numMarkAt
  split
  · next heq => injection heq with h1 _; exact absurd h1 h
  · rfl

theorem alphaMarkAt_none_of_ne {c : Char} (t : Str) (h : c ≠ '(') :
    alphaMarkAt (c :: t) = none := by
  unfold alphaMarkAt
  split
  · next heq => injection heq with h1 _; exact absurd h1 h
  · rfl

theorem scrubGo_id {m : Str → Option Nat}
    (hm : ∀ c t, c ≠ '(' → m (c :: t) = none) :
    ∀ (fuel : Nat) (s : Str), '(' ∉ s → scrubGo m fuel s = s := by
  intro fuel s
  induction s generalizing fuel with
  | nil => intro _; cases fuel <;> rfl
  | cons c t ih =>
    intro h
    have hc : c ≠ '(' := fun hcc => h (hcc ▸ List.mem_cons_self _ _)
    have ht : '(' ∉ t := fun hmem => h (List.mem_cons_of_mem _ hmem)
    cases fuel with
    | zero => rfl
    | succ n => simp only [scrubGo, hm c t hc]; rw [ih n ht]

theorem stripNumMarks_id {s : Str} (h : '(' ∉ s) : stripNumMarks s = s :=
  scrubGo_id (fun c t hc => numMarkAt_none_of_ne t hc) s.length s h

theorem stripAlphaMarks_id {s : Str} (h : '(' ∉ s) : stripAlphaMarks s = s :=
  scrubGo_id (fun c t hc => alphaMarkAt_none_of_ne t hc) s.length s h

theorem normalizeName_eq_trim_collapse {x : Str} (h : '(' ∉ x) :
    normalizeName x = trim (collapse x) := by
  have h1 : '(' ∉ collapse x := noParen_collapse h
  unfold normalizeName
  rw [stripNumMarks_id h1, stripAlphaMarks_id h1]

/-!
List helpers and lemmas about the percentage and share matchers.
-/

theorem all_takeWhile (p : Char → Bool) (l : Str) : (l.takeWhile p).all p = true := by
  induction l with
  | nil => rfl
  | cons c t ih =>
    by_cases hc : p c = true
    · simpa [List.takeWhile, hc] using ih
    · simp [List.takeWhile, hc]

theorem takeWhile_idem (p : Char → Bool) (l : Str) :
    (l.takeWhile p).takeWhile p = l.takeWhile p := by
  induction l with
  | nil => rfl
  | cons c t ih =>
    by_cases hc : p c = true
    · simp [List.takeWhile, hc, ih]
    · simp [List.takeWhile, hc]

theorem takeWhile_append_stop {p : Char → Bool} {l : Str} (hl : l.all p = true)
    {x : Char} (hx : p x = false) (r : Str) :
    (l ++ x :: r).takeWhile p = l := by
  induction l with
  | nil => simp [List.takeWhile, hx]
  | cons c t ih =>
    simp only [List.all_cons, Bool.and_eq_true] at hl
    simp [List.takeWhile, hl.1, ih hl.2]

theorem drop_len_append (l r : Str) : (l ++ r).drop l.length = r := by
  induction l with
  | nil => rfl
  | cons c t ih => simpa using ih

theorem decShape_of_pctMatchAt {s g : Str} (h : pctMatchAt s = some g) :
    decShape g = true := by
  unfold pctMatchAt at h
  by_cases hds : (s.takeWhile Char.isDigit).isEmpty = true
  · simp [hds] at h
  · simp only [hds] at h
    simp only [Bool.false_eq_true, if_false] at h
    split at h
    · next heq =>
      injection h with h1
      subst h1
      unfold decShape
      rw [takeWhile_idem]
      simp [hds, List.drop_length]
    · next r2 heq =>
      split at h
      · next heq2 =>
        injection h with h1
        subst h1
        unfold decShape
        have hall : (s.takeWhile Char.isDigit).all Char.isDigit = true :=
          all_takeWhile _ _
        rw [takeWhile_append_stop hall (by decide)]
        simp only [hds, Bool.false_eq_true, if_false]
        rw [drop_len_append]
        simpa using all_takeWhile Char.isDigit r2
      · exact absurd h (by simp)
    · exact absurd h (by simp)

theorem decShape_of_pctSearch {s g : Str} (h : pctSearch s = some g) :
    decShape g = true := by
  induction s with
  | nil => simp [pctSearch] at h
  | cons c t ih =>
    unfold pctSearch at h
    split at h
    · next heq => injection h with h1; exact h1 ▸ decShape_of_pctMatchAt heq
    · exact ih h

theorem shareOf_gt100 {c : Str} {n : Nat} (h : shareOf c = some n) : 100 < n := by
  unfold shareOf at h
  split at h
  · exact absurd h (by simp)
  · next g heq =>
    dsimp only at h
    split at h
    · next hcond =>
      injection h with h1
      simp only [Bool.and_eq_true, decide_eq_true_eq] at hcond
      exact h1 ▸ hcond.2
    · exact absurd h (by simp)

/-!
Lemmas about the cell scan `scanFields`.
-/

theorem scanFields_pct_sticky (cells : List Str) (p : Str) :
    ∀ sh, (scanFields cells (some p) sh).1 = some p := by
  induction cells with
  | nil => intro sh; rfl
  | cons c rest ih => intro sh; simpa [scanFields] using ih _

theorem scanFields_sh_sticky (cells : List Str) (n : Nat) :
    ∀ pct, (scanFields cells pct (some n)).2 = some n := by
  induction cells with
  | nil => intro pct; rfl
  | cons c rest ih => intro pct; simpa [scanFields] using ih _

theorem scanFields_pct_spec (cells : List Str) :
    ∀ sh, (scanFields cells none sh).1 =
      (cells.filterMap (fun c => pctSearch (trim c))).head? := by
  induction cells with
  | nil => intro sh; rfl
  | cons c rest ih =>
    intro sh
    cases hp : pctSearch (trim c) with
    | none => simp [scanFields, hp, List.filterMap_cons, ih]
    | some p => simp [scanFields, hp, List.filterMap_cons, scanFields_pct_sticky]

theorem scanFields_sh_spec (cells : List Str) :
    ∀ pct, (scanFields cells pct none).2 =
      (cells.filterMap (fun c => shareOf (trim c))).head? := by
  induction cells with
  | nil => intro pct; rfl
  | cons c rest ih =>
    intro pct
    cases hs : shareOf (trim c) with
    | none => simp [scanFields, hs, List.filterMap_cons, ih]
    | some n => simp [scanFields, hs, List.filterMap_cons, scanFields_sh_sticky]

theorem head?_mem {α : Type} {l : List α} {x : α} (h : l.head? = some x) : x ∈ l := by
  cases l with
  | nil => simp at h
  | cons a t =>
    simp only [List.head?_cons, Option.some.injEq] at h
    exact h ▸ List.mem_cons_self _ _

theorem scanFields_sh_gt100 {cells : List Str} {pct : Option Str} {n : Nat}
    (h : (scanFields cells pct none).2 = some n) : 100 < n := by
  rw [scanFields_sh_spec cells pct] at h
  obtain ⟨c, _, hc⟩ := List.mem_filterMap.mp (head?_mem h)
  exact shareOf_gt100 hc

theorem scanFields_pct_shape {cells : List Str} {sh : Option Nat} {p : Str}
    (h : (scanFields cells none sh).1 = some p) : decShape p = true := by
  rw [scanFields_pct_spec cells sh] at h
  obtain ⟨c, _, hc⟩ := List.mem_filterMap.mp (head?_mem h)
  exact decShape_of_pctSearch hc

/-!
Lemmas about row processing and the table loop.
-/

theorem processRow_inv {row : Row} {r : Stockholder} (h : processRow row = some r) :
    is_valid_investor_name r.name = true ∧
    ∃ cells : List Str,
      r.ownership_pct = (scanFields cells none none).1 ∧
      r.shares = (scanFields cells none none).2 := by
  unfold processRow at h
  cases hc : row.cells with
  | nil => rw [hc] at h; exact absurd h (by simp)
  | cons c0 tl =>
    cases tl with
    | nil => rw [hc] at h; exact absurd h (by simp)
    | cons c1 cs =>
      rw [hc] at h
      dsimp only at h
      split at h
      · next hval =>
        injection h with h1
        subst h1
        exact ⟨hval, c1 :: cs, rfl, rfl⟩
      · exact absurd h (by simp)

theorem valid_name_ne_nil {n : Str} (h : is_valid_investor_name n = true) : n ≠ [] :=
  fun hn => absurd (hn ▸ h) (by decide)

theorem mem_tableRecords {t : Table} {r : Stockholder} (h : r ∈ tableRecords t) :
    ∃ row : Row, processRow row = some r := by
  unfold tableRecords at h
  split at h
  · next i _ =>
    obtain ⟨row, _, hrow⟩ := List.mem_filterMap.mp h
    exact ⟨row, hrow⟩
  · simp at h

theorem mem_extractLoop {r : Stockholder} :
    ∀ (tables : List Table) (acc : List Stockholder),
      r ∈ extractLoop tables acc → r ∈ acc ∨ ∃ t ∈ tables, r ∈ tableRecords t := by
  intro tables
  induction tables with
  | nil => intro acc h; exact Or.inl h
  | cons t rest ih =>
    intro acc h
    by_cases hs : isStockTable t = true
    · simp only [extractLoop, hs, if_true] at h
      have split_acc2 : r ∈ acc ++ tableRecords t → r ∈ acc ∨ ∃ u ∈ t :: rest, r ∈ tableRecords u := by
        intro hmem
        rcases List.mem_append.mp hmem with h1 | h1
        · exact Or.inl h1
        · exact Or.inr ⟨t, List.mem_cons_self _ _, h1⟩
      by_cases he : (acc ++ tableRecords t).isEmpty = true
      · simp only [he, if_true] at h
        rcases ih _ h with h1 | ⟨u, hu, hru⟩
        · exact split_acc2 h1
        · exact Or.inr ⟨u, List.mem_cons_of_mem _ hu, hru⟩
      · simp only [he] at h
        simp only [Bool.false_eq_true, if_false] at h
        exact split_acc2 h
    · simp only [extractLoop, hs] at h
      simp only [Bool.false_eq_true, if_false] at h
      rcases ih _ h with h1 | ⟨u, hu, hru⟩
      · exact Or.inl h1
      · exact Or.inr ⟨u, List.mem_cons_of_mem _ hu, hru⟩

theorem mem_extract {tables : List Table} {r : Stockholder}
    (h : r ∈ extract_stockholder_table tables) : ∃ t ∈ tables, r ∈ tableRecords t := by
  rcases mem_extractLoop tables [] h with h1 | h1
  · simp at h1
  · exact h1

theorem extractLoop_skip {pre : List Table}
    (h : ∀ t ∈ pre, isStockTable t = false ∨ tableRecords t = []) :
    ∀ rest : List Table, extractLoop (pre ++ rest) [] = extractLoop rest [] := by
  induction pre with
  | nil => intro rest; rfl
  | cons t pre' ih =>
    intro rest
    have ht := h t (List.mem_cons_self _ _)
    have h' : ∀ u ∈ pre', isStockTable u = false ∨ tableRecords u = [] :=
      fun u hu => h u (List.mem_cons_of_mem _ hu)
    by_cases hs : isStockTable t = true
    · have hr : tableRecords t = [] := by
        rcases ht with h1 | h1
        · rw [hs] at h1; exact absurd h1 (by simp)
        · exact h1
      simp only [List.cons_append, extractLoop, hs, if_true, hr, List.append_nil,
        List.isEmpty_nil, if_true]
      exact ih h' rest
    · simp only [List.cons_append, extractLoop, hs]
      simp only [Bool.false_eq_true, if_false]
      exact ih h' rest

theorem extract_of_all_unproductive {tables : List Table}
    (h : ∀ t ∈ tables, isStockTable t = false ∨ tableRecords t = []) :
    extract_stockholder_table tables = [] := by
  have := extractLoop_skip h []
  rw [List.append_nil] at this
  exact this

theorem extract_first_productive {pre : List Table} {t : Table} (post : List Table)
    (hpre : ∀ u ∈ pre, isStockTable u = false ∨ tableRecords u = [])
    (hq : isStockTable t = true) (hne : tableRecords t ≠ []) :
    extract_stockholder_table (pre ++ t :: post) = tableRecords t := by
  unfold extract_stockholder_table
  rw [extractLoop_skip hpre (t :: post)]
  have hie : (([] : List Stockholder) ++ tableRecords t).isEmpty = false := by
    rw [List.nil_append]
    cases hrec : tableRecords t with
    | nil => exact absurd hrec hne
    | cons a l => rfl
  simp only [extractLoop, hq, if_true, hie]
  simp only [Bool.false_eq_true, if_false, List.nil_append]

/-!
Lemma about `List.find?`: the found element is the first satisfying one.
-/

theorem find?_first {α : Type} (p : α → Bool) :
    ∀ (l : List α) (a : α), l.find? p = some a →
      p a = true ∧ ∃ l1 l2, l = l1 ++ a :: l2 ∧ ∀ x ∈ l1, p x = false := by
  intro l
  induction l with
  | nil => intro a h; simp [List.find?] at h
  | cons b t ih =>
    intro a h
    cases hp : p b with
    | true =>
      rw [List.find?_cons_of_pos _ hp] at h
      injection h with h1
      subst h1
      exact ⟨hp, [], t, rfl, by simp⟩
    | false =>
      rw [List.find?_cons_of_neg _ (by simp [hp])] at h
      obtain ⟨ha, l1, l2, hsplit, hl1⟩ := ih a h
      refine ⟨ha, b :: l1, l2, by rw [hsplit]; rfl, ?_⟩
      intro x hx
      rcases List.mem_cons.mp hx with h1 | h1
      · exact h1 ▸ hp
      · exact hl1 x h1

/-!
Lemmas about the roster matcher.
-/

theorem scanPool_isSome_mono (f : Str → Nat) (th : Nat) :
    ∀ (l : List Str) (st : Option Str × Nat), st.1.isSome = true →
      (scanPool f th l st).1.isSome = true := by
  intro l
  induction l with
  | nil => intro st h; exact h
  | cons n rest ih =>
    intro st h
    obtain ⟨b, bs⟩ := st
    by_cases hc : (decide (f n > bs) && decide (f n ≥ th)) = true
    · simp only [scanPool, hc, if_true]
      exact ih _ (by simp)
    · simp only [scanPool, hc]
      simp only [Bool.false_eq_true, if_false]
      exact ih _ h

theorem scanPool_none_fixed (f : Str → Nat) (th : Nat) :
    ∀ (l : List Str) (bs : Nat), (scanPool f th l (none, bs)).1 = none →
      scanPool f th l (none, bs) = (none, bs) := by
  intro l
  induction l with
  | nil => intro bs _; rfl
  | cons n rest ih =>
    intro bs h
    by_cases hc : (decide (f n > bs) && decide (f n ≥ th)) = true
    · exfalso
      have hsome : (scanPool f th (n :: rest) (none, bs)).1.isSome = true := by
        simp only [scanPool, hc, if_true]
        exact scanPool_isSome_mono f th rest _ (by simp)
      rw [h] at hsome
      simp at hsome
    · simp only [scanPool, hc] at h ⊢
      simp only [Bool.false_eq_true, if_false] at h ⊢
      exact ih bs h

theorem scanPool_isSome_iff (f : Str → Nat) (th : Nat) :
    ∀ (l : List Str) (b : Option Str) (bs : Nat),
      (scanPool f th l (b, bs)).1.isSome = true ↔
        b.isSome = true ∨ ∃ n ∈ l, bs < f n ∧ th ≤ f n := by
  intro l
  induction l with
  | nil =>
    intro b bs
    simp [scanPool]
  | cons a rest ih =>
    intro b bs
    by_cases hc : (decide (f a > bs) && decide (f a ≥ th)) = true
    · simp only [scanPool, hc, if_true]
      simp only [Bool.and_eq_true, decide_eq_true_eq] at hc
      constructor
      · intro _
        exact Or.inr ⟨a, List.mem_cons_self _ _, hc.1, hc.2⟩
      · intro _
        exact scanPool_isSome_mono f th rest _ (by simp)
    · simp only [scanPool, hc]
      simp only [Bool.false_eq_true, if_false]
      rw [ih b bs]
      simp only [Bool.and_eq_true, decide_eq_true_eq, not_and, gt_iff_lt, ge_iff_le] at hc
      constructor
      · rintro (h1 | ⟨n, hn, h2, h3⟩)
        · exact Or.inl h1
        · exact Or.inr ⟨n, List.mem_cons_of_mem _ hn, h2, h3⟩
      · rintro (h1 | ⟨n, hn, h2, h3⟩)
        · exact Or.inl h1
        · rcases List.mem_cons.mp hn with h4 | h4
          · subst h4; exact absurd (h2) (by intro hlt; exact hc hlt h3)
          · exact Or.inr ⟨n, h4, h2, h3⟩

theorem find_match_isSome_iff (f : Str → Nat) (orgs persons : List Str) (th : Nat) :
    (find_match f orgs persons th).isSome = true ↔
      ∃ n ∈ orgs ++ persons, 0 < f n ∧ th ≤ f n := by
  unfold find_match
  constructor
  · intro h
    cases h1 : (scanPool f th orgs (none, 0)).1 with
    | some b =>
      have : (scanPool f th orgs (none, 0)).1.isSome = true := by rw [h1]; rfl
      obtain ⟨n, hn, h2, h3⟩ :=
        ((scanPool_isSome_iff f th orgs none 0).mp this).resolve_left (by simp)
      exact ⟨n, List.mem_append_left _ hn, h2, h3⟩
    | none =>
      rw [scanPool_none_fixed f th orgs 0 h1] at h
      obtain ⟨n, hn, h2, h3⟩ :=
        ((scanPool_isSome_iff f th persons none 0).mp h).resolve_left (by simp)
      exact ⟨n, List.mem_append_right _ hn, h2, h3⟩
  · intro ⟨n, hn, h2, h3⟩
    rcases List.mem_append.mp hn with h4 | h4
    · have : (scanPool f th orgs (none, 0)).1.isSome = true :=
        (scanPool_isSome_iff f th orgs none 0).mpr (Or.inr ⟨n, h4, h2, h3⟩)
      cases hst : scanPool f th orgs (none, 0) with
      | mk b bs =>
        rw [hst] at this
        exact scanPool_isSome_mono f th persons _ this
    · cases h1 : (scanPool f th orgs (none, 0)).1 with
      | some b =>
        have : (scanPool f th orgs (none, 0)).1.isSome = true := by rw [h1]; rfl
        cases hst : scanPool f th orgs (none, 0) with
        | mk b2 bs =>
          rw [hst] at this
          exact scanPool_isSome_mono f th persons _ this
      | none =>
        rw [scanPool_none_fixed f th orgs 0 h1]
        exact (scanPool_isSome_iff f th persons none 0).mpr (Or.inr ⟨n, h4, h2, h3⟩)

theorem classify_eq_classifySpec (n : Str) : classify_entity n = classifySpec n := by
  unfold classify_entity classifySpec entityRules
  simp only [List.find?]
  split_ifs <;> simp_all

/-- A data row with a single cell whose text would pass the validator. -/
def singleCellRow : Row :=
  { cells := ["Acme Capital LLC".toList], text := "Acme Capital LLC".toList }

/-- Scores of the roster entries for a fixed query, as computed by the
external fuzzy matcher: opaque to this repository, fixed here for the
matcher witness. -/
def rosterScore : Str → Nat :=
  fun n => if n = "acme capital".toList then 90 else 0

/-!
The claims.
-/

/-- Claim C1, counterexample: the first qualifying table (`tableNoHeader`)
yields zero rows, yet the document result is not zero rows — the scan
continues to the later qualifying table `tableGood` and returns its row,
contradicting the claim that the whole document then yields zero rows. -/
theorem c1_counterexample :
    isStockTable tableNoHeader = true ∧ tableRecords tableNoHeader = [] ∧
    isStockTable tableGood = true ∧
    extract_stockholder_table [tableNoHeader, tableGood] = [acmeRec] ∧
    extract_stockholder_table [tableNoHeader, tableGood] ≠ [] := by
  refine ⟨by decide, by decide, by decide, by decide, by decide⟩

/-- Claim C1, amended: output rows come from the first qualifying table
that yields at least one row; a qualifying table yielding zero rows does
not stop the scan.  If no table qualifies and yields rows, the result is
empty; if the tables split as `pre ++ t :: post` with every table of `pre`
non-qualifying or yielding zero rows and `t` qualifying with at least one
row, the result is exactly the rows of `t`. -/
theorem c1_first_productive_table :
    (∀ tables : List Table,
      (∀ t ∈ tables, isStockTable t = false ∨ tableRecords t = []) →
      extract_stockholder_table tables = []) ∧
    (∀ (pre : List Table) (t : Table) (post : List Table),
      (∀ u ∈ pre, isStockTable u = false ∨ tableRecords u = []) →
      isStockTable t = true → tableRecords t ≠ [] →
      extract_stockholder_table (pre ++ t :: post) = tableRecords t) :=
  ⟨fun _ h => extract_of_all_unproductive h,
   fun _ t post hpre hq hne => extract_first_productive post hpre hq hne⟩

/-- Claim C1, witness for the amended statement at a concrete document. -/
theorem c1_witness :
    (isStockTable tableGood = true ∧ tableRecords tableGood ≠ []) ∧
    extract_stockholder_table ([tableNoHeader] ++ tableGood :: []) = tableRecords tableGood :=
  ⟨⟨by decide, by decide⟩,
   c1_first_productive_table.2 [tableNoHeader] tableGood []
     (by intro u hu
         rw [List.mem_singleton] at hu
         subst hu
         exact Or.inr (by decide))
     (by decide) (by decide)⟩

/-- Claim C2, counterexample: a data-row cell reading `500%` produces an
emitted record whose ownership percentage is `500`, outside `[0, 100]`. -/
theorem c2_counterexample :
    extract_stockholder_table [tableGood] = [acmeRec] ∧
    acmeRec.ownership_pct = some "500".toList ∧
    ¬ (pctVal "500".toList ≤ 100) := by
  refine ⟨by decide, by decide, ?_⟩
  have h1 : pctNum "500".toList = 500 := by decide
  have h2 : pctDen "500".toList = 1 := by decide
  rw [pctVal, h1, h2]; norm_num

/-- Claim C2, amended: every emitted record has a non-empty,
validator-accepted name; its share count, when present, is a positive
integer; its ownership percentage, when present, is a decimal numeral
(digits with an optional fractional part), hence nonnegative — but it is
not bounded by 100. -/
theorem c2_record_invariant :
    ∀ (tables : List Table) (r : Stockholder), r ∈ extract_stockholder_table tables →
      r.name ≠ [] ∧ is_valid_investor_name r.name = true ∧
      (∀ n, r.shares = some n → 0 < n) ∧
      (∀ p, r.ownership_pct = some p → decShape p = true ∧ 0 ≤ pctVal p) := by
  intro tables r hmem
  obtain ⟨t, _, hrt⟩ := mem_extract hmem
  obtain ⟨row, hrow⟩ := mem_tableRecords hrt
  obtain ⟨hval, cells, hpct, hsh⟩ := processRow_inv hrow
  refine ⟨valid_name_ne_nil hval, hval, ?_, ?_⟩
  · intro n hn
    have h100 := scanFields_sh_gt100 (show (scanFields cells none none).2 = some n by
      rw [← hsh]; exact hn)
    omega
  · intro p hp
    have hshape := scanFields_pct_shape (show (scanFields cells none none).1 = some p by
      rw [← hpct]; exact hp)
    refine ⟨hshape, ?_⟩
    rw [pctVal]; positivity

/-- Claim C2, witness for the amended invariant at a concrete record. -/
theorem c2_witness :
    (acmeRec ∈ extract_stockholder_table [tableGood]) ∧
    (acmeRec.name ≠ [] ∧ is_valid_investor_name acmeRec.name = true ∧
     (∀ n, acmeRec.shares = some n → 0 < n) ∧
     (∀ p, acmeRec.ownership_pct = some p → decShape p = true ∧ 0 ≤ pctVal p)) :=
  ⟨by decide, c2_record_invariant [tableGood] acmeRec (by decide)⟩

/-- Claim C3, counterexample: normalizing `a (1) b` once leaves the double
space created by removing the footnote marker, so a second application
differs from the first. -/
theorem c3_counterexample :
    normalizeName (normalizeName "a (1) b".toList) ≠ normalizeName "a (1) b".toList := by
  decide

/-- Claim C3, amended: the name-cleaning transform is idempotent on every
input containing no parenthesis character (hence no footnote marker); in
general a second application can differ, because marker removal can create
new whitespace runs or expose new markers. -/
theorem c3_idempotent_no_paren :
    ∀ x : Str, '(' ∉ x → normalizeName (normalizeName x) = normalizeName x := by
  intro x h
  have hy := normalizeName_eq_trim_collapse h
  have hnp : '(' ∉ trim (collapse x) := noParen_trim (noParen_collapse h)
  rw [hy, normalizeName_eq_trim_collapse hnp, collapse_trim_collapse, trim_idem]

/-- Claim C3, witness for the amended statement at a concrete input. -/
theorem c3_witness :
    ('(' ∉ "  Jane   Doe ".toList) ∧
    normalizeName (normalizeName "  Jane   Doe ".toList) = normalizeName "  Jane   Doe ".toList :=
  ⟨by decide, c3_idempotent_no_paren _ (by decide)⟩

/-- Claim C4, counterexample: an anchor that mentions the form type `s-1`
neither in its text nor in its href is selected by the first-pass scan,
because its href ends with `.htm` and contains the archive path segment. -/
theorem c4_counterexample :
    selectDocLink [anchorNoS1] = some anchorNoS1 ∧ mentionsFormType anchorNoS1 = false := by
  decide

/-- Claim C4, amended: the resolver selects the first anchor whose href
contains `/Archives/edgar/data/` and whose link text mentions `s-1` OR
whose href ends with `.htm`; anchors failing this condition are skipped. -/
theorem c4_first_anchor :
    ∀ (links : List Anchor) (a : Anchor), selectDocLink links = some a →
      anchorQual a = true ∧
      ∃ l1 l2, links = l1 ++ a :: l2 ∧ ∀ x ∈ l1, anchorQual x = false :=
  fun links a h => find?_first anchorQual links a h

/-- Claim C4, witness for the amended statement at a concrete anchor list. -/
theorem c4_witness :
    anchorQual anchorNoS1 = true ∧
    ∃ l1 l2, [anchorNoS1] = l1 ++ anchorNoS1 :: l2 ∧ ∀ x ∈ l1, anchorQual x = false :=
  c4_first_anchor [anchorNoS1] anchorNoS1 (by decide)

/-- Claim C5: ownership percentage comes from the first cell with a
percentage match (later ones are ignored); the share count comes from the
first cell whose digit group (percent signs removed) parses to a value
exceeding 100, and only values exceeding 100 are ever taken; the row
`["Jane Doe", "1,234,567 shares", "4.5%"]` yields sharesOwned 1234567 and
ownershipPercent "4.5". -/
theorem c5_field_extraction :
    (∀ cells : List Str, (scanFields cells none none).1 =
      (cells.filterMap (fun c => pctSearch (trim c))).head?) ∧
    (∀ cells : List Str, (scanFields cells none none).2 =
      (cells.filterMap (fun c => shareOf (trim c))).head?) ∧
    (∀ (c : Str) (n : Nat), shareOf c = some n → 100 < n) ∧
    processRow janeRow =
      some { name := "Jane Doe".toList, shares := some 1234567,
             ownership_pct := some "4.5".toList } :=
  ⟨fun cells => scanFields_pct_spec cells none,
   fun cells => scanFields_sh_spec cells none,
   fun _ _ h => shareOf_gt100 h,
   by decide⟩

/-- Claim C5, witness: the share filter applied at a concrete cell. -/
theorem c5_witness :
    (shareOf "5,000".toList = some 5000) ∧ 100 < 5000 :=
  ⟨by decide, c5_field_extraction.2.2.1 "5,000".toList 5000 (by decide)⟩

/-- Claim C6, counterexample: `the risk factors as a group of 12 persons`
starts with the rejected prefix `the `, contains `as a group` and a digit,
and is its own normal form, yet the validator rejects it: the
section-substring check (`risk factors`) fires before the prefix check, so
the exception never runs. -/
theorem c6_counterexample :
    vBadStart trickGroupName = true ∧
    containsSub "as a group".toList (nameLower trickGroupName) = true ∧
    trickGroupName.any Char.isDigit = true ∧
    normalizeName trickGroupName = trickGroupName ∧
    is_valid_investor_name trickGroupName = false := by
  refine ⟨by decide, by decide, by decide, by decide, by decide⟩

/-- Claim C6, amended: for every name that passes the earlier checks
(length bounds, all-caps-heading, exact-phrase reject, section-substring
reject) and starts with a rejected prefix while containing `as a group`
and at least one digit, the validator accepts immediately; in particular
the Scenario-4 aggregate row is accepted. -/
theorem c6_group_exception :
    ∀ name : Str, vLenBad name = false → vCapsHeader name = false →
      vExactReject name = false → vSectionHit name = false →
      vBadStart name = true → vGroupDigit name = true →
      is_valid_investor_name name = true := by
  intro name h1 h2 h3 h4 h5 h6
  unfold is_valid_investor_name
  simp [h1, h2, h3, h4, h5, h6]

/-- Claim C6, witness: the amended statement applied to the Scenario-4
aggregate row name. -/
theorem c6_witness :
    (vBadStart groupName = true ∧ vGroupDigit groupName = true) ∧
    is_valid_investor_name groupName = true :=
  ⟨⟨by decide, by decide⟩,
   c6_group_exception groupName (by decide) (by decide) (by decide) (by decide)
     (by decide) (by decide)⟩

/-- Claim C7: for a fixed roster and per-entry scores, if `find_match`
returns a match at threshold `t'` then it also returns a match at any
threshold `t ≤ t'`: raising the threshold can only remove matches. -/
theorem c7_threshold_monotone :
    ∀ (f : Str → Nat) (orgs persons : List Str) (t t' : Nat), t ≤ t' →
      (find_match f orgs persons t').isSome = true →
      (find_match f orgs persons t).isSome = true := by
  intro f orgs persons t t' hle h
  obtain ⟨n, hn, h1, h2⟩ := (find_match_isSome_iff f orgs persons t').mp h
  exact (find_match_isSome_iff f orgs persons t).mpr ⟨n, hn, h1, le_trans hle h2⟩

/-- Claim C7, witness at a concrete roster and thresholds 80 ≤ 85. -/
theorem c7_witness :
    (80 ≤ 85 ∧ (find_match rosterScore ["acme capital".toList] [] 85).isSome = true) ∧
    (find_match rosterScore ["acme capital".toList] [] 80).isSome = true :=
  ⟨⟨by decide, by decide⟩,
   c7_threshold_monotone rosterScore ["acme capital".toList] [] 80 85 (by decide) (by decide)⟩

/-- Claim C8: the classifier agrees with the spec's ordered first-matching
rule over the six-tag taxonomy (totality holds by typing); a name
containing `family trust` with no foundation/endowment keyword classifies
as family_office, not trust; in particular `XYZ Family Trust`. -/
theorem c8_classifier :
    (∀ name : Str, classify_entity name = classifySpec name) ∧
    (∀ name : Str, containsSub "family trust".toList (lowerS name) = true →
      anyIn ["foundation", "endowment"] (lowerS name) = false →
      classify_entity name = EntityType.family_office) ∧
    classify_entity "XYZ Family Trust".toList = EntityType.family_office := by
  refine ⟨classify_eq_classifySpec, ?_, by decide⟩
  intro name h1 h2
  have hfam : anyIn ["family office", "family trust", "family lp"] (lowerS name) = true := by
    simp only [anyIn, List.any_cons, List.any_nil, Bool.or_eq_true]
    right; left
    simpa using h1
  simp [classify_entity, h2, hfam]

/-- Claim C8, witness: the family-trust priority applied at `XYZ Family
Trust`. -/
theorem c8_witness :
    (containsSub "family trust".toList (lowerS "XYZ Family Trust".toList) = true) ∧
    classify_entity "XYZ Family Trust".toList = EntityType.family_office :=
  ⟨by decide, c8_classifier.2.1 "XYZ Family Trust".toList (by decide) (by decide)⟩

/-- Claim C9: whenever an emitted record carries a share count, that count
strictly exceeds 100; a digit-group cell parsing to 100 or less never sets
the field and scanning continues, so a later cell above 100 still supplies
it (`["50", "5,000"]` yields 5000). -/
theorem c9_share_floor :
    (∀ (tables : List Table) (r : Stockholder) (n : Nat),
      r ∈ extract_stockholder_table tables → r.shares = some n → 100 < n) ∧
    scanFields ["50".toList, "5,000".toList] none none = (none, some 5000) := by
  constructor
  · intro tables r n hmem hn
    obtain ⟨t, _, hrt⟩ := mem_extract hmem
    obtain ⟨row, hrow⟩ := mem_tableRecords hrt
    obtain ⟨_, cells, _, hsh⟩ := processRow_inv hrow
    exact scanFields_sh_gt100 (show (scanFields cells none none).2 = some n by
      rw [← hsh]; exact hn)
  · decide

/-- Claim C9, witness at the concrete extracted record. -/
theorem c9_witness :
    (acmeRec ∈ extract_stockholder_table [tableGood] ∧ acmeRec.shares = some 500) ∧
    100 < 500 :=
  ⟨⟨by decide, by decide⟩,
   c9_share_floor.1 [tableGood] acmeRec 500 (by decide) (by decide)⟩

/-- Claim C10: a table data row with fewer than two cells never produces a
stockholder record — it is skipped before name processing. -/
theorem c10_short_rows_skipped :
    ∀ row : Row, row.cells.length < 2 → processRow row = none := by
  intro row h
  unfold processRow
  cases hc : row.cells with
  | nil => rfl
  | cons c0 tl =>
    cases tl with
    | nil => rfl
    | cons c1 cs =>
      rw [hc] at h
      simp at h
      omega

/-- Claim C10, witness: a one-cell row whose text would pass the validator
still yields nothing. -/
theorem c10_witness :
    (singleCellRow.cells.length < 2 ∧
     is_valid_investor_name (normalizeName (trim "Acme Capital LLC".toList)) = true) ∧
    processRow singleCellRow = none :=
  ⟨⟨by decide, by decide⟩, c10_short_rows_skipped singleCellRow (by decide)⟩
